import Mathlib

/-!
Shallow embedding of the core of `@xorng/template-knowledge`:
the document chunking utilities (`src/utils/chunking.ts`, class `ChunkingUtils`)
and the keyword search index (`src/utils/search.ts`, class `SearchIndex`).

Strings are modelled as Lean `String` (lists of characters); all string
operations used by the source are re-implemented over `String.data` by
structural recursion so that every definition is executable and
kernel-reducible.  JavaScript `Map`s are modelled as association lists in
insertion order (`mapSet` updates in place or appends), JavaScript `Set`s as
duplicate-free lists in insertion order (`setAdd` appends if absent).
-/

set_option maxRecDepth 20000
set_option maxHeartbeats 2000000

/- Batteries marks `Rat.mul` and `Rat.inv` irreducible, which blocks the
evaluation of concrete normalized scores in `decide`-based witnesses; restore
the default reducibility of these two arithmetic operations. -/
set_option allowUnsafeReducibility true
attribute [semireducible] Rat.mul Rat.inv

/-! ### JavaScript string primitives -/

/-- The character class `\w` of a JavaScript regex: `[A-Za-z0-9_]`. -/
def isWordChar (c : Char) : Bool := c.isAlphanum || c == '_'

/-- The character class `\s` of a JavaScript regex, restricted to its ASCII
members (space, tab, line feed, vertical tab, form feed, carriage return). -/
def isJsSpace (c : Char) : Bool :=
  c == ' ' || c == '\t' || c == '\n' || c == '\x0b' || c == '\x0c' || c == '\r'

/-- ASCII lowercasing of one character, as performed by
`String.prototype.toLowerCase` on ASCII input: `'A'..'Z'` (code points 65–90)
are shifted by 32, everything else is unchanged. -/
def jsCharToLower (c : Char) : Char :=
  if 65 ≤ c.toNat ∧ c.toNat ≤ 90 then Char.ofNat (c.toNat + 32) else c

/-- One character of `.replace(/[^\w\s]/g, ' ')`: a character that is neither
a word character nor whitespace becomes a single space. -/
def replaceNonWordChar (c : Char) : Char :=
  if isWordChar c || isJsSpace c then c else ' '

/-- Split a character list at every whitespace character, keeping the (possibly
empty) pieces between consecutive separators.  This models
`.split(/\s+/)` up to empty pieces: splitting at every single whitespace
character yields exactly the same non-empty pieces, in the same order, as
splitting at maximal whitespace runs, plus extra empty pieces; the caller
(`tokenize`) discards all pieces of length `≤ 2`, so the two agree. -/
def splitWsAux : List Char → List Char → List (List Char)
  | [], acc => [acc.reverse]
  | c :: rest, acc =>
      if isJsSpace c then acc.reverse :: splitWsAux rest []
      else splitWsAux rest (c :: acc)

/-- Split a character list on whitespace characters (see `splitWsAux`). -/
def splitWs (l : List Char) : List (List Char) := splitWsAux l []

/-- `String.prototype.trim` on a character list: remove leading and trailing
whitespace. -/
def trimList (l : List Char) : List Char :=
  ((l.dropWhile isJsSpace).reverse.dropWhile isJsSpace).reverse

/-- `String.prototype.trim`. -/
def jsTrim (s : String) : String := ⟨trimList s.data⟩

/-- `String.prototype.toLowerCase` (ASCII). -/
def jsToLower (s : String) : String := ⟨s.data.map jsCharToLower⟩

/-- `s.slice(-n)` for a non-negative JavaScript number `n`: for `n = 0` this is
`s.slice(0)`, i.e. the whole string (in JavaScript `-0 === 0`); for `n > 0` it
is the suffix of length `min n s.length`. -/
def jsSliceNeg (s : String) (n : Nat) : String :=
  if n = 0 then s else ⟨s.data.drop (s.data.length - n)⟩

/-- `s.slice(a, b)` for `0 ≤ a ≤ b`: the characters at positions
`[a, min b s.length)`. -/
def jsSlice (s : String) (a b : Nat) : String := ⟨(s.data.take b).drop a⟩

/-- Split a character list at every `'\n'`, as `String.prototype.split('\n')`. -/
def splitNlAux : List Char → List Char → List (List Char)
  | [], acc => [acc.reverse]
  | c :: rest, acc =>
      if c = '\n' then acc.reverse :: splitNlAux rest []
      else splitNlAux rest (c :: acc)

/-- `content.split('\n')`, producing the lines of `content`. -/
def splitLines (s : String) : List String :=
  (splitNlAux s.data []).map (fun l => ⟨l⟩)

/-! ### Data model (`src/types/index.ts`) -/

/-- The `DocumentType` union of the source. -/
inductive DocumentType where
  | text | markdown | code | json | html | practice | styleGuide
deriving DecidableEq, Repr

/-- `DocumentMetadata`: the recognized optional fields used by the core
(`source` is required in the source type; further open keys are not observed
by the chunker or the search index and are omitted from the embedding). -/
structure DocumentMetadata where
  source : String
  path : Option String
  language : Option String
  version : Option String
  tags : Option (List String)
deriving DecidableEq, Repr

/-- A `Document` value. -/
structure Document where
  id : String
  type : DocumentType
  content : String
  title : Option String
  metadata : DocumentMetadata
deriving DecidableEq, Repr

/-- A `DocumentChunk` value.  Offsets are integers because the chunker's
overlap bookkeeping (`startOffset + currentChunk.length - overlap`) can go
negative in JavaScript. -/
structure DocumentChunk where
  id : String
  documentId : String
  content : String
  title : Option String
  startOffset : Int
  endOffset : Int
  metadata : DocumentMetadata
deriving DecidableEq, Repr

/-- `SearchFilters` (the `type` field is declared in the source but never read
by `SearchIndex.search`). -/
structure SearchFilters where
  source : Option String
  type : Option DocumentType
  tags : Option (List String)
  language : Option String
deriving DecidableEq, Repr

/-- A `SearchResult`.  The normalized score is modelled as a rational. -/
structure SearchResult where
  chunk : DocumentChunk
  score : ℚ
  highlights : List String
deriving DecidableEq, Repr

/-! ### JavaScript `Map` / `Set` on association lists -/

/-- `Map.prototype.get`. -/
def mapGet {α : Type} : List (String × α) → String → Option α
  | [], _ => none
  | (k', v) :: rest, k => if k' = k then some v else mapGet rest k

/-- `Map.prototype.set`: update the entry in place if the key is present
(JavaScript `Map` keys are unique), otherwise append a new entry (insertion
order). -/
def mapSet {α : Type} : List (String × α) → String → α → List (String × α)
  | [], k, v => [(k, v)]
  | (k', v') :: rest, k, v =>
      if k' = k then (k, v) :: rest else (k', v') :: mapSet rest k v

/-- `Map.prototype.delete` (dropping the returned boolean): remove the
entries for the key.  On the key-unique lists produced by `mapSet` this
removes exactly the one matching entry. -/
def mapDelete {α : Type} : List (String × α) → String → List (String × α)
  | [], _ => []
  | (k', v) :: rest, k =>
      if k' = k then mapDelete rest k else (k', v) :: mapDelete rest k

/-- `Set.prototype.add`: append if absent. -/
def setAdd (s : List String) (x : String) : List String :=
  if x ∈ s then s else s ++ [x]

/-- `Set.prototype.delete` (dropping the returned boolean): remove the
element if present. -/
def setDelete : List String → String → List String
  | [], _ => []
  | y :: rest, x => if y = x then setDelete rest x else y :: setDelete rest x

/-! ### `SearchIndex` (`src/utils/search.ts`) -/

/-- The private state of a `SearchIndex`: the primary chunk map
`chunks : Map<string, DocumentChunk>` and the inverted index
`invertedIndex : Map<string, Set<string>>`. -/
structure SearchIndex where
  chunks : List (String × DocumentChunk)
  invertedIndex : List (String × List String)
deriving DecidableEq, Repr

/-- A freshly constructed `SearchIndex` (both maps empty). -/
def SearchIndex.empty : SearchIndex := ⟨[], []⟩

/-- `SearchIndex.tokenize`: lowercase, replace every non-word non-space
character by a space, split on whitespace, keep tokens of length `> 2`. -/
def SearchIndex.tokenize (text : String) : List String :=
  ((splitWs ((text.data.map jsCharToLower).map replaceNonWordChar)).filter
      (fun t => 2 < t.length)).map (fun t => ⟨t⟩)

/-- The `for (const token of tokens)` loop of `SearchIndex.add`: ensure a
posting set exists for the token, then add the chunk id to it. -/
def addTokens : List (String × List String) → List String → String →
    List (String × List String)
  | inv, [], _ => inv
  | inv, t :: rest, cid =>
      addTokens (mapSet inv t (setAdd ((mapGet inv t).getD []) cid)) rest cid

/-- `SearchIndex.add`. -/
def SearchIndex.add (idx : SearchIndex) (chunk : DocumentChunk) : SearchIndex :=
  { chunks := mapSet idx.chunks chunk.id chunk
    invertedIndex := addTokens idx.invertedIndex (tokenize chunk.content) chunk.id }

/-- The `for (const token of tokens)` loop of `SearchIndex.remove`:
`this.invertedIndex.get(token)?.delete(chunkId)`. -/
def removeTokens : List (String × List String) → List String → String →
    List (String × List String)
  | inv, [], _ => inv
  | inv, t :: rest, cid =>
      removeTokens
        (match mapGet inv t with
         | none => inv
         | some s => mapSet inv t (setDelete s cid)) rest cid

/-- `SearchIndex.remove`: returns the boolean result together with the
updated index state. -/
def SearchIndex.remove (idx : SearchIndex) (chunkId : String) :
    Bool × SearchIndex :=
  match mapGet idx.chunks chunkId with
  | none => (false, idx)
  | some chunk =>
      (true,
        { chunks := mapDelete idx.chunks chunkId
          invertedIndex :=
            removeTokens idx.invertedIndex (tokenize chunk.content) chunkId })

/-- `SearchIndex.count`. -/
def SearchIndex.count (idx : SearchIndex) : Nat := idx.chunks.length

/-- `SearchIndex.clear`. -/
def SearchIndex.clear (_idx : SearchIndex) : SearchIndex := SearchIndex.empty

/-- The inner `for (const chunkId of matchingChunks)` loop of
`SearchIndex.search`: `scores.set(chunkId, (scores.get(chunkId) || 0) + 1)`. -/
def bumpAll : List (String × Nat) → List String → List (String × Nat)
  | scores, [] => scores
  | scores, id :: rest =>
      bumpAll (mapSet scores id ((mapGet scores id).getD 0 + 1)) rest

/-- The score-accumulation loop of `SearchIndex.search`: for each query token,
bump the score of every chunk id in its posting set. -/
def SearchIndex.computeScores (idx : SearchIndex) :
    List String → List (String × Nat) → List (String × Nat)
  | [], scores => scores
  | token :: rest, scores =>
      match mapGet idx.invertedIndex token with
      | none => SearchIndex.computeScores idx rest scores
      | some ids => SearchIndex.computeScores idx rest (bumpAll scores ids)

/-- `Math.max(...scores.values(), 1)`. -/
def maxScoreOf (scores : List (String × Nat)) : Nat :=
  scores.foldl (fun m p => max m p.2) 1

/-- The filter block of `SearchIndex.search`.  An empty-string `source` or
`language` filter is falsy in JavaScript, so the corresponding check is
skipped; a `tags` filter requires at least one requested tag to be present
in the chunk's metadata tags (an absent metadata `tags` matches nothing). -/
def passChunkFilters (filters : Option SearchFilters) (c : DocumentChunk) : Bool :=
  match filters with
  | none => true
  | some f =>
      (match f.source with
       | none => true
       | some s => s == "" || c.metadata.source == s) &&
      (match f.language with
       | none => true
       | some s => s == "" || c.metadata.language == some s) &&
      (match f.tags with
       | none => true
       | some ts => ts.any (fun t => (c.metadata.tags.getD []).contains t))

/-- All indices `i` at which `t` occurs in `l` as a contiguous sublist, in
increasing order: the successive values of `lowerContent.indexOf(token, ·)`. -/
def matchPositions (l t : List Char) : List Nat :=
  (List.range l.length).filter (fun i => decide ((l.drop i).take t.length = t))

/-- One highlight snippet of `SearchIndex.getHighlights`: the window of
`windowSize` characters on each side of the occurrence at position `i`,
clamped to the content bounds and marked with ellipses where truncated. -/
def snippetAt (content : String) (token : String) (windowSize i : Nat) : String :=
  let start := i - windowSize
  let stop := min content.length (i + token.length + windowSize)
  let snip := jsSlice content start stop
  let snip' := if 0 < start then "..." ++ snip else snip
  if stop < content.length then snip' ++ "..." else snip'

/-- `SearchIndex.getHighlights`: for each query token in order, append a
snippet for each occurrence while fewer than 3 highlights have been
collected (the `while (index !== -1 && highlights.length < 3)` loop), then
`slice(0, 3)`. -/
def SearchIndex.getHighlights (content : String) (queryTokens : List String)
    (windowSize : Nat) : List String :=
  let lower := jsToLower content
  (queryTokens.foldl
      (fun hs token =>
        hs ++ ((matchPositions lower.data token.data).map
            (fun i => snippetAt content token windowSize i)).take (3 - hs.length))
      []).take 3

/-- The result-building loop of `SearchIndex.search`: iterate the score map in
insertion order, drop ids with no stored chunk, apply the filters, normalize
the score and attach highlights. -/
def SearchIndex.buildResults (idx : SearchIndex) (scores : List (String × Nat))
    (maxScore : Nat) (queryTokens : List String) (filters : Option SearchFilters) :
    List SearchResult :=
  scores.filterMap (fun p =>
    match mapGet idx.chunks p.1 with
    | none => none
    | some chunk =>
        if passChunkFilters filters chunk then
          some ⟨chunk, (p.2 : ℚ) / (maxScore : ℚ),
            SearchIndex.getHighlights chunk.content queryTokens 50⟩
        else none)

/-- The comparison used by `results.sort((a, b) => b.score - a.score)`:
`a` may precede `b` exactly when `b.score ≤ a.score`. -/
def scoreDescRel (a b : SearchResult) : Prop := b.score ≤ a.score

instance : DecidableRel scoreDescRel := fun a b => inferInstanceAs (Decidable (b.score ≤ a.score))

instance : IsTotal SearchResult scoreDescRel := ⟨fun a b => le_total b.score a.score⟩

instance : IsTrans SearchResult scoreDescRel := ⟨fun _ _ _ h1 h2 => le_trans h2 h1⟩

/-- `SearchIndex.search`. -/
def SearchIndex.search (idx : SearchIndex) (query : String) (limit : Nat)
    (filters : Option SearchFilters) : List SearchResult :=
  let queryTokens := tokenize query
  let scores := idx.computeScores queryTokens []
  let maxScore := maxScoreOf scores
  let results := idx.buildResults scores maxScore queryTokens filters
  (List.insertionSort scoreDescRel results).take limit

/-- The default value of the `limit` parameter of `SearchIndex.search`. -/
def defaultSearchLimit : Nat := 10

/-- `SearchIndex.search` with the `limit` argument omitted. -/
def SearchIndex.searchDefault (idx : SearchIndex) (query : String)
    (filters : Option SearchFilters) : List SearchResult :=
  idx.search query defaultSearchLimit filters

/-! ### `ChunkingUtils` (`src/utils/chunking.ts`) -/

/-- The pieces of `content.split(/\n\n+/)`: split at every maximal run of two
or more `'\n'` characters.  The `fuel` argument is an upper bound on the
number of remaining characters, making the recursion structural; it is
initialized to the length of the list and never runs out. -/
def splitParasAux : Nat → List Char → List Char → List (List Char)
  | _, [], acc => [acc.reverse]
  | 0, l, acc => [acc.reverse ++ l]
  | fuel + 1, c :: rest, acc =>
      if c = '\n' ∧ rest.head? = some '\n' then
        acc.reverse :: splitParasAux fuel (rest.dropWhile (fun d => d = '\n')) []
      else splitParasAux fuel rest (c :: acc)

/-- `ChunkingUtils.splitParagraphs`:
`content.split(/\n\n+/).map(p => p.trim() + '\n\n').filter(p => p.trim().length > 0)`. -/
def ChunkingUtils.splitParagraphs (content : String) : List String :=
  (((splitParasAux (content.data.length + 1) content.data []).map
        (fun p => (⟨trimList p⟩ : String) ++ "\n\n")).filter
    (fun p => 0 < (jsTrim p).length))

/-- Does a line match `/^#{1,6}\s/`: one to six leading `'#'` characters
followed by a whitespace character. -/
def isMdHeader (line : String) : Bool :=
  let hashes := line.data.takeWhile (fun c => c = '#')
  decide (1 ≤ hashes.length) && decide (hashes.length ≤ 6) &&
    (match line.data.drop hashes.length with
     | c :: _ => isJsSpace c
     | [] => false)

/-- The loop body state of `ChunkingUtils.splitMarkdown`: accumulated sections
and the current section. -/
def splitMarkdownStep (st : List String × String) (line : String) :
    List String × String :=
  let (sections, currentSection) := st
  if isMdHeader line then
    (if 0 < (jsTrim currentSection).length then sections ++ [currentSection]
     else sections,
     line ++ "\n")
  else if (jsTrim line).length = 0 ∧ 0 < (jsTrim currentSection).length then
    (sections ++ [currentSection ++ "\n"], "")
  else
    (sections, currentSection ++ line ++ "\n")

/-- `ChunkingUtils.splitMarkdown`. -/
def ChunkingUtils.splitMarkdown (content : String) : List String :=
  let st := (splitLines content).foldl splitMarkdownStep ([], "")
  if 0 < (jsTrim st.2).length then st.1 ++ [st.2] else st.1

/-- Number of occurrences of a character in a line
(`(line.match(/{/g) || []).length`). -/
def countChar (c : Char) (line : String) : Nat :=
  (line.data.filter (fun d => d = c)).length

/-- The loop body of `ChunkingUtils.splitCode`: track brace depth, append the
line, and close the section at a blank line at depth zero. -/
def splitCodeStep (st : List String × String × Int) (line : String) :
    List String × String × Int :=
  let (sections, currentSection, braceDepth) := st
  let braceDepth' := braceDepth + (countChar '{' line : Int) - (countChar '}' line : Int)
  let currentSection' := currentSection ++ line ++ "\n"
  if braceDepth' = 0 ∧ (jsTrim line).length = 0 then
    (if 0 < (jsTrim currentSection').length then (sections ++ [currentSection'], "", braceDepth')
     else (sections, currentSection', braceDepth'))
  else (sections, currentSection', braceDepth')

/-- `ChunkingUtils.splitCode`. -/
def ChunkingUtils.splitCode (content : String) : List String :=
  let st := (splitLines content).foldl splitCodeStep ([], "", 0)
  if 0 < (jsTrim st.2.1).length then st.1 ++ [st.2.1] else st.1

/-- `ChunkingUtils.splitSemantically`. -/
def ChunkingUtils.splitSemantically (content : String) (type : DocumentType) :
    List String :=
  match type with
  | DocumentType.markdown => ChunkingUtils.splitMarkdown content
  | DocumentType.code => ChunkingUtils.splitCode content
  | _ => ChunkingUtils.splitParagraphs content

/-- Build one emitted chunk of `ChunkingUtils.chunk`. -/
def mkChunk (docId : String) (meta : DocumentMetadata) (chunkIndex : Nat)
    (content : String) (startOffset endOffset : Int) : DocumentChunk :=
  { id := docId ++ "-chunk-" ++ toString chunkIndex
    documentId := docId
    content := content
    title := none
    startOffset := startOffset
    endOffset := endOffset
    metadata := meta }

/-- The section-accumulation loop of `ChunkingUtils.chunk`, written as a
recursion over the remaining sections.  The emitted chunks are produced in
order; the final buffer is emitted (trimmed) when it trims to something
non-empty. -/
def chunkLoop (docId : String) (meta : DocumentMetadata) (chunkSize overlap : Nat) :
    List String → String → Int → Nat → List DocumentChunk
  | [], currentChunk, startOffset, chunkIndex =>
      if 0 < (jsTrim currentChunk).length then
        [mkChunk docId meta chunkIndex (jsTrim currentChunk) startOffset
          (startOffset + currentChunk.length)]
      else []
  | sec :: rest, currentChunk, startOffset, chunkIndex =>
      if chunkSize < currentChunk.length + sec.length ∧ 0 < currentChunk.length then
        mkChunk docId meta chunkIndex (jsTrim currentChunk) startOffset
            (startOffset + currentChunk.length) ::
          chunkLoop docId meta chunkSize overlap rest
            (jsSliceNeg currentChunk overlap ++ sec)
            (startOffset + currentChunk.length - overlap) (chunkIndex + 1)
      else
        chunkLoop docId meta chunkSize overlap rest (currentChunk ++ sec)
          startOffset chunkIndex

/-- `ChunkingUtils.chunk` for a `ChunkingUtils` constructed with the given
`chunkSize` and `overlap`. -/
def ChunkingUtils.chunk (chunkSize overlap : Nat) (document : Document) :
    List DocumentChunk :=
  let content := document.content
  if content.length ≤ chunkSize then
    [{ id := document.id ++ "-chunk-0"
       documentId := document.id
       content := content
       title := none
       startOffset := 0
       endOffset := (content.length : Int)
       metadata := document.metadata }]
  else
    chunkLoop document.id document.metadata chunkSize overlap
      (ChunkingUtils.splitSemantically content document.type) "" 0 0

/-! ### Operation sequences and well-formed states -/

/-- One mutating operation on a `SearchIndex`. -/
inductive IndexOp where
  | add (chunk : DocumentChunk)
  | remove (id : String)
deriving DecidableEq, Repr

/-- Apply one operation. -/
def applyOp (idx : SearchIndex) : IndexOp → SearchIndex
  | IndexOp.add c => idx.add c
  | IndexOp.remove id => (idx.remove id).2

/-- Apply a sequence of operations in order. -/
def applyOps (idx : SearchIndex) (ops : List IndexOp) : SearchIndex :=
  ops.foldl applyOp idx

/-- The remove-then-add discipline: every `add` in the sequence targets a
chunk id that is not currently stored (callers update a chunk by removing it
first, as the specification demands). -/
def goodOps : SearchIndex → List IndexOp → Bool
  | _, [] => true
  | idx, op :: rest =>
      (match op with
       | IndexOp.add c => (mapGet idx.chunks c.id).isNone
       | IndexOp.remove _ => true) &&
      goodOps (applyOp idx op) rest

/-- Well-formedness of a `SearchIndex` state, invariantly true of every state
a JavaScript `SearchIndex` object can reach: map keys are unique (`Map` keys
are unique), every stored chunk is keyed by its own id (`add` stores
`chunk` under `chunk.id`), and every posting list is duplicate-free
(`Set` elements are unique). -/
def SearchIndex.wf (idx : SearchIndex) : Bool :=
  decide (idx.chunks.map Prod.fst).Nodup &&
  idx.chunks.all (fun p => p.2.id == p.1) &&
  decide (idx.invertedIndex.map Prod.fst).Nodup &&
  idx.invertedIndex.all (fun p => decide p.2.Nodup)

/-! ### Posting-set membership -/

/-- The chunk id `id` is in the posting set of token `t` in the inverted
index `inv`. -/
def PostingMem (inv : List (String × List String)) (t id : String) : Prop :=
  ∃ s, mapGet inv t = some s ∧ id ∈ s

instance (inv : List (String × List String)) (t id : String) :
    Decidable (PostingMem inv t id) := by
  unfold PostingMem
  cases mapGet inv t with
  | none => exact Decidable.isFalse (by simp)
  | some s => exact decidable_of_iff (id ∈ s) (by simp)

/-! ### The index-consistency invariant (claim C1) -/

/-- The index-consistency invariant of the claim: a chunk id appears in the
posting set of a token only if that id is stored in the primary chunk map
and the token occurs in the tokenization of the stored content. -/
def IndexConsistent (idx : SearchIndex) : Prop :=
  ∀ t id, PostingMem idx.invertedIndex t id →
    ∃ c, mapGet idx.chunks id = some c ∧ t ∈ SearchIndex.tokenize c.content


/-! ### Concrete fixtures used by counterexamples and witnesses -/

/-- A minimal metadata value. -/
def fxMeta : DocumentMetadata := ⟨"s", none, none, none, none⟩

/-- A chunk with id `"x"` containing the tokens `apple` and `pie`. -/
def fxApplePie : DocumentChunk := ⟨"x", "d", "apple pie", none, 0, 9, fxMeta⟩

/-- A chunk with the same id `"x"` but different content `banana`. -/
def fxBananaX : DocumentChunk := ⟨"x", "d", "banana", none, 0, 6, fxMeta⟩

/-- A chunk with id `"y"` containing the token `banana`. -/
def fxBananaY : DocumentChunk := ⟨"y", "d", "banana", none, 0, 6, fxMeta⟩

/-- The stale-posting operation sequence of the C1 counterexample: the id
`"x"` is re-added with different content without removing it first. -/
def fxStaleOps : List IndexOp := [IndexOp.add fxApplePie, IndexOp.add fxBananaX]

/-- A remove-then-add update sequence for the same two chunk versions. -/
def fxGoodOps : List IndexOp :=
  [IndexOp.add fxApplePie, IndexOp.remove "x", IndexOp.add fxBananaX]

/-- Raw score of a chunk id in the score map (`scores.get(chunkId) || 0`). -/
def scoreOf (scores : List (String × Nat)) (id : String) : Nat :=
  (mapGet scores id).getD 0

/-- Does the posting set of token `t` contain the chunk id `id` (boolean
version of `PostingMem`). -/
def postingContains (idx : SearchIndex) (t id : String) : Bool :=
  match mapGet idx.invertedIndex t with
  | none => false
  | some ids => ids.contains id

/-- A document small enough for the single-chunk branch. -/
def fxSmallDoc : Document := ⟨"d5", DocumentType.text, "hello", none, fxMeta⟩

/-- The document of the C2 example scenario: 1500 repetitions of `"A"`. -/
def fxDocA1500 : Document :=
  ⟨"d1", DocumentType.text, ⟨List.replicate 1500 'A'⟩, none, fxMeta⟩

/-- A text document with a short first paragraph and one 60-character
paragraph, exceeding any `chunkSize + overlap` bound for small sizes. -/
def fxDocLongPara : Document :=
  ⟨"d4", DocumentType.text, "aa\n\n" ++ ⟨List.replicate 60 'b'⟩, none, fxMeta⟩

/-- A text document with three 4-character paragraphs. -/
def fxDocParas : Document :=
  ⟨"d4w", DocumentType.text, "aaaa\n\nbbbb\n\ncccc", none, fxMeta⟩

/-- A chunk whose content is the single token `abc`. -/
def fxAbc : DocumentChunk := ⟨"z", "d", "abc", none, 0, 3, fxMeta⟩

/-- An index holding `fxApplePie` (id `"x"`) and `fxBananaY` (id `"y"`). -/
def fxIdxXY : SearchIndex := (SearchIndex.empty.add fxApplePie).add fxBananaY

/-- A character that can occur in a token produced by `tokenize`: a word
character that is not whitespace and is fixed by ASCII lowercasing. -/
def isTokenChar (c : Char) : Bool :=
  isWordChar c && !(isJsSpace c) && (jsCharToLower c == c)

/-! ### Lemmas about the `Map` / `Set` model -/

theorem mapGet_mapSet {α : Type} (m : List (String × α)) (k : String) (v : α)
    (k' : String) :
    mapGet (mapSet m k v) k' = if k = k' then some v else mapGet m k' := by
  induction m with
  | nil =>
      by_cases h : k = k' <;> simp [mapGet, mapSet, h]
  | cons p rest ih =>
      obtain ⟨pk, pv⟩ := p
      by_cases hpk : pk = k <;> by_cases hk' : k = k'
      · simp [mapGet, mapSet, hpk, hk']
      · have h2 : ¬ pk = k' := fun h => hk' (hpk.symm.trans h)
        simp [mapGet, mapSet, hpk, hk', h2]
      · have h2 : ¬ pk = k' := fun h => hpk (h.trans hk'.symm)
        show mapGet (if pk = k then (k, v) :: rest else (pk, pv) :: mapSet rest k v) k' = _
        rw [if_neg hpk]
        show (if pk = k' then some pv else mapGet (mapSet rest k v) k') = _
        rw [if_neg h2, ih, if_pos hk', if_pos hk']
      · simp [mapGet, mapSet, hpk, hk', ih]

theorem mapGet_mem {α : Type} {m : List (String × α)} {k : String} {v : α}
    (h : mapGet m k = some v) : (k, v) ∈ m := by
  induction m with
  | nil => simp [mapGet] at h
  | cons p rest ih =>
      obtain ⟨pk, pv⟩ := p
      by_cases hpk : pk = k
      · subst hpk
        simp [mapGet] at h
        simp [h]
      · simp [mapGet, hpk] at h
        exact List.mem_cons_of_mem _ (ih h)

theorem mem_keys_of_mapGet {α : Type} {m : List (String × α)} {k : String} {v : α}
    (h : mapGet m k = some v) : k ∈ m.map Prod.fst :=
  List.mem_map.mpr ⟨(k, v), mapGet_mem h, rfl⟩

theorem mapGet_mapDelete {α : Type} (m : List (String × α)) (k k' : String) :
    mapGet (mapDelete m k) k' = if k = k' then none else mapGet m k' := by
  induction m with
  | nil => simp [mapGet, mapDelete]
  | cons p rest ih =>
      obtain ⟨pk, pv⟩ := p
      by_cases hpk : pk = k
      · subst hpk
        by_cases hk' : pk = k'
        · subst hk'
          simpa [mapDelete, mapGet] using ih
        · simpa [mapDelete, mapGet, hk'] using ih
      · by_cases hk' : pk = k'
        · subst hk'
          have hne : ¬ pk = k := hpk
          have hne2 : ¬ k = pk := fun h => hpk h.symm
          simp [mapDelete, mapGet, hne, hne2]
        · simp [mapDelete, mapGet, hpk, hk', ih]

theorem mapDelete_eq_self {α : Type} {m : List (String × α)} {k : String}
    (h : k ∉ m.map Prod.fst) : mapDelete m k = m := by
  induction m with
  | nil => rfl
  | cons p rest ih =>
      obtain ⟨pk, pv⟩ := p
      simp only [List.map_cons, List.mem_cons] at h
      push_neg at h
      have hne : ¬ pk = k := fun hc => h.1 hc.symm
      simp [mapDelete, hne, ih h.2]

theorem mapDelete_length {α : Type} {m : List (String × α)} {k : String} {v : α}
    (hnd : (m.map Prod.fst).Nodup) (h : mapGet m k = some v) :
    (mapDelete m k).length + 1 = m.length := by
  induction m with
  | nil => simp [mapGet] at h
  | cons p rest ih =>
      obtain ⟨pk, pv⟩ := p
      simp only [List.map_cons, List.nodup_cons] at hnd
      by_cases hpk : pk = k
      · have hk_not : k ∉ rest.map Prod.fst := hpk ▸ hnd.1
        simp [mapDelete, hpk, mapDelete_eq_self hk_not]
      · simp only [mapGet, hpk, if_false] at h
        have := ih hnd.2 h
        simp only [mapDelete, hpk, if_false, List.length_cons]
        omega

theorem keys_mapSet {α : Type} (m : List (String × α)) (k : String) (v : α) :
    (mapSet m k v).map Prod.fst =
      if k ∈ m.map Prod.fst then m.map Prod.fst else m.map Prod.fst ++ [k] := by
  induction m with
  | nil => simp [mapSet]
  | cons p rest ih =>
      obtain ⟨pk, pv⟩ := p
      by_cases hpk : pk = k
      · subst hpk
        simp [mapSet]
      · have hne : ¬ k = pk := fun h => hpk h.symm
        simp only [mapSet, hpk, if_false, List.map_cons, ih]
        by_cases hmem : k ∈ rest.map Prod.fst
        · simp [hmem, hne]
        · simp [hmem, hne]

theorem nodup_keys_mapSet {α : Type} {m : List (String × α)} (k : String) (v : α)
    (hnd : (m.map Prod.fst).Nodup) : ((mapSet m k v).map Prod.fst).Nodup := by
  rw [keys_mapSet]
  by_cases hmem : k ∈ m.map Prod.fst
  · simpa [hmem] using hnd
  · simp only [hmem, if_false]
    exact hnd.append (List.nodup_singleton k) (List.disjoint_singleton.mpr hmem)

theorem mem_setAdd {s : List String} {x y : String} :
    x ∈ setAdd s y ↔ x ∈ s ∨ x = y := by
  unfold setAdd
  by_cases h : y ∈ s
  · simp only [h, if_true]
    constructor
    · exact Or.inl
    · rintro (hx | rfl)
      · exact hx
      · exact h
  · simp [h]

theorem nodup_setAdd {s : List String} (y : String) (h : s.Nodup) :
    (setAdd s y).Nodup := by
  unfold setAdd
  by_cases hy : y ∈ s
  · simpa [hy] using h
  · simp only [hy, if_false]
    exact h.append (List.nodup_singleton y) (List.disjoint_singleton.mpr hy)

theorem mem_setDelete {s : List String} {x y : String} :
    x ∈ setDelete s y ↔ x ∈ s ∧ x ≠ y := by
  induction s with
  | nil => simp [setDelete]
  | cons z rest ih =>
      by_cases hz : z = y
      · subst hz
        simp only [setDelete, if_true, ih, List.mem_cons]
        constructor
        · rintro ⟨hx, hxy⟩
          exact ⟨Or.inr hx, hxy⟩
        · rintro ⟨hx | hx, hxy⟩
          · exact absurd hx hxy
          · exact ⟨hx, hxy⟩
      · simp only [setDelete, hz, if_false, List.mem_cons, ih]
        constructor
        · rintro (rfl | ⟨hx, hxy⟩)
          · exact ⟨Or.inl rfl, hz⟩
          · exact ⟨Or.inr hx, hxy⟩
        · rintro ⟨hx | hx, hxy⟩
          · exact Or.inl hx
          · exact Or.inr ⟨hx, hxy⟩

theorem nodup_setDelete {s : List String} (y : String) (h : s.Nodup) :
    (setDelete s y).Nodup := by
  induction s with
  | nil => simp [setDelete]
  | cons z rest ih =>
      simp only [List.nodup_cons] at h
      by_cases hz : z = y
      · simpa [setDelete, hz] using ih h.2
      · simp only [setDelete, hz, if_false, List.nodup_cons]
        exact ⟨fun hmem => h.1 (mem_setDelete.mp hmem).1, ih h.2⟩

theorem postingMem_addTokens_step {inv : List (String × List String)}
    {t t' id cid : String} :
    PostingMem (mapSet inv t' (setAdd ((mapGet inv t').getD []) cid)) t id ↔
      PostingMem inv t id ∨ (t = t' ∧ id = cid) := by
  by_cases ht : t' = t
  · subst ht
    unfold PostingMem
    simp only [mapGet_mapSet, if_pos rfl]
    constructor
    · rintro ⟨s, hs, hmem⟩
      cases hs
      rcases mem_setAdd.mp hmem with hg | rfl
      · left
        cases hget : mapGet inv t' with
        | none => simp [hget] at hg
        | some s0 => exact ⟨s0, rfl, by simpa [hget] using hg⟩
      · exact Or.inr (by simp)
    · rintro (⟨s, hs, hmem⟩ | ⟨-, rfl⟩)
      · exact ⟨_, rfl, mem_setAdd.mpr (Or.inl (by simp [hs]; exact hmem))⟩
      · exact ⟨_, rfl, mem_setAdd.mpr (Or.inr rfl)⟩
  · unfold PostingMem
    rw [mapGet_mapSet, if_neg (fun h : t' = t => ht h)]
    constructor
    · rintro ⟨s, hs, hmem⟩
      exact Or.inl ⟨s, hs, hmem⟩
    · rintro (⟨s, hs, hmem⟩ | ⟨rfl, -⟩)
      · exact ⟨s, hs, hmem⟩
      · exact absurd rfl ht

theorem postingMem_addTokens {t id cid : String} :
    ∀ (ts : List String) (inv : List (String × List String)),
      PostingMem (addTokens inv ts cid) t id ↔
        PostingMem inv t id ∨ (t ∈ ts ∧ id = cid) := by
  intro ts
  induction ts with
  | nil => intro inv; simp [addTokens]
  | cons t' rest ih =>
      intro inv
      show PostingMem (addTokens (mapSet inv t' _) rest cid) t id ↔ _
      rw [ih]
      rw [postingMem_addTokens_step]
      constructor
      · rintro ((h | ⟨rfl, rfl⟩) | ⟨hmem, rfl⟩)
        · exact Or.inl h
        · exact Or.inr ⟨List.mem_cons_self _ _, rfl⟩
        · exact Or.inr ⟨List.mem_cons_of_mem _ hmem, rfl⟩
      · rintro (h | ⟨hmem, rfl⟩)
        · exact Or.inl (Or.inl h)
        · rcases List.mem_cons.mp hmem with rfl | hmem'
          · exact Or.inl (Or.inr ⟨rfl, rfl⟩)
          · exact Or.inr ⟨hmem', rfl⟩

theorem postingMem_removeTokens_step {inv : List (String × List String)}
    {t t' id cid : String} :
    PostingMem
        (match mapGet inv t' with
         | none => inv
         | some s => mapSet inv t' (setDelete s cid)) t id ↔
      PostingMem inv t id ∧ ¬(t = t' ∧ id = cid) := by
  cases hget : mapGet inv t' with
  | none =>
      simp only
      constructor
      · intro h
        refine ⟨h, ?_⟩
        rintro ⟨rfl, rfl⟩
        obtain ⟨s, hs, -⟩ := h
        rw [hget] at hs
        exact Option.noConfusion hs
      · exact fun h => h.1
  | some s =>
      simp only
      by_cases ht : t' = t
      · subst ht
        unfold PostingMem
        simp only [mapGet_mapSet, if_pos rfl]
        constructor
        · rintro ⟨s', hs', hmem⟩
          cases hs'
          have := mem_setDelete.mp hmem
          exact ⟨⟨s, hget, this.1⟩, by rintro ⟨-, rfl⟩; exact this.2 rfl⟩
        · rintro ⟨⟨s', hs', hmem⟩, hnot⟩
          rw [hget] at hs'
          cases hs'
          refine ⟨_, rfl, mem_setDelete.mpr ⟨hmem, ?_⟩⟩
          intro hcid
          exact hnot ⟨by trivial, hcid⟩
      · unfold PostingMem
        rw [mapGet_mapSet, if_neg (fun h : t' = t => ht h)]
        constructor
        · rintro ⟨s', hs', hmem⟩
          exact ⟨⟨s', hs', hmem⟩, by rintro ⟨rfl, -⟩; exact ht rfl⟩
        · exact fun h => h.1

theorem postingMem_removeTokens {t id cid : String} :
    ∀ (ts : List String) (inv : List (String × List String)),
      PostingMem (removeTokens inv ts cid) t id ↔
        PostingMem inv t id ∧ ¬(t ∈ ts ∧ id = cid) := by
  intro ts
  induction ts with
  | nil => intro inv; simp [removeTokens]
  | cons t' rest ih =>
      intro inv
      show PostingMem (removeTokens _ rest cid) t id ↔ _
      rw [ih, postingMem_removeTokens_step]
      constructor
      · rintro ⟨⟨h, hnot1⟩, hnot2⟩
        refine ⟨h, ?_⟩
        rintro ⟨hmem, rfl⟩
        rcases List.mem_cons.mp hmem with rfl | hmem'
        · exact hnot1 ⟨rfl, rfl⟩
        · exact hnot2 ⟨hmem', rfl⟩
      · rintro ⟨h, hnot⟩
        refine ⟨⟨h, ?_⟩, ?_⟩
        · rintro ⟨rfl, rfl⟩
          exact hnot ⟨List.mem_cons_self _ _, rfl⟩
        · rintro ⟨hmem', rfl⟩
          exact hnot ⟨List.mem_cons_of_mem _ hmem', rfl⟩

theorem indexConsistent_empty : IndexConsistent SearchIndex.empty := by
  rintro t id ⟨s, hs, -⟩
  exact Option.noConfusion hs

theorem indexConsistent_add {idx : SearchIndex} {c : DocumentChunk}
    (h : IndexConsistent idx) (hfresh : mapGet idx.chunks c.id = none) :
    IndexConsistent (idx.add c) := by
  intro t id hmem
  have hchar := (postingMem_addTokens (SearchIndex.tokenize c.content) idx.invertedIndex).mp hmem
  rcases hchar with hold | ⟨htok, rfl⟩
  · obtain ⟨c', hc', htok'⟩ := h t id hold
    have hne : ¬ c.id = id := by
      intro hcontra
      rw [hcontra] at hfresh
      rw [hfresh] at hc'
      exact Option.noConfusion hc'
    refine ⟨c', ?_, htok'⟩
    show mapGet (mapSet idx.chunks c.id c) id = some c'
    rw [mapGet_mapSet, if_neg hne]
    exact hc'
  · refine ⟨c, ?_, htok⟩
    show mapGet (mapSet idx.chunks c.id c) c.id = some c
    rw [mapGet_mapSet, if_pos rfl]

theorem indexConsistent_remove {idx : SearchIndex} (cid : String)
    (h : IndexConsistent idx) : IndexConsistent (idx.remove cid).2 := by
  cases hget : mapGet idx.chunks cid with
  | none =>
      have : (idx.remove cid).2 = idx := by
        unfold SearchIndex.remove
        rw [hget]
      rw [this]
      exact h
  | some chunk =>
      have hrem : (idx.remove cid).2 =
          { chunks := mapDelete idx.chunks cid
            invertedIndex :=
              removeTokens idx.invertedIndex
                (SearchIndex.tokenize chunk.content) cid } := by
        unfold SearchIndex.remove
        rw [hget]
      rw [hrem]
      intro t id hmem
      have hchar := (postingMem_removeTokens _ _).mp hmem
      obtain ⟨hold, hnot⟩ := hchar
      obtain ⟨c', hc', htok'⟩ := h t id hold
      have hne : ¬ cid = id := by
        rintro rfl
        rw [hget] at hc'
        cases hc'
        exact hnot ⟨htok', rfl⟩
      refine ⟨c', ?_, htok'⟩
      show mapGet (mapDelete idx.chunks cid) id = some c'
      rw [mapGet_mapDelete, if_neg hne]
      exact hc'

theorem indexConsistent_applyOps {idx : SearchIndex} {ops : List IndexOp}
    (h : IndexConsistent idx) (hgood : goodOps idx ops = true) :
    IndexConsistent (applyOps idx ops) := by
  induction ops generalizing idx with
  | nil => exact h
  | cons op rest ih =>
      simp only [goodOps, Bool.and_eq_true] at hgood
      have hstep : IndexConsistent (applyOp idx op) := by
        cases op with
        | add c =>
            have hfresh : mapGet idx.chunks c.id = none := by
              have := hgood.1
              simpa [Option.isNone_iff_eq_none] using this
            exact indexConsistent_add h hfresh
        | remove id => exact indexConsistent_remove id h
      exact ih hstep hgood.2

/-! ### Claim C1 -/

/--
C1 (counterexample): the claimed index-consistency invariant fails after the
operation sequence `[add fxApplePie, add fxBananaX]`, which re-adds the chunk
id `"x"` with different content: the posting set of `"apple"` still contains
`"x"` although the currently stored content `"banana"` does not tokenize to
`"apple"`; moreover a subsequent `remove "x"` leaves `"x"` in the posting set
of `"apple"`, so `remove` does not remove the id from every posting set that
contains it.
-/
theorem c1_counterexample :
    PostingMem (applyOps SearchIndex.empty fxStaleOps).invertedIndex
        "apple" "x" ∧
    mapGet (applyOps SearchIndex.empty fxStaleOps).chunks "x" = some fxBananaX ∧
    "apple" ∉ SearchIndex.tokenize fxBananaX.content ∧
    PostingMem
        (applyOps SearchIndex.empty
          (fxStaleOps ++ [IndexOp.remove "x"])).invertedIndex "apple" "x" := by
  refine ⟨?_, ?_, ?_, ?_⟩ <;> decide

/--
C1 (amended): the index-consistency invariant holds after every operation
sequence that follows the remove-then-add discipline the specification
prescribes for updates (every `add` targets an id not currently stored):
a chunk id appears in the posting set of a token only if the id is present
in the primary chunk map and the token occurs in the tokenization of that
chunk's currently stored content; in particular under this discipline
`remove` removes the id from every posting set that contains it.
-/
theorem c1_index_consistency (ops : List IndexOp)
    (hgood : goodOps SearchIndex.empty ops = true) :
    IndexConsistent (applyOps SearchIndex.empty ops) :=
  indexConsistent_applyOps indexConsistent_empty hgood

/-- C1 (witness): the amended invariant theorem applied to the concrete
remove-then-add update sequence `fxGoodOps`. -/
theorem c1_index_consistency_witness :
    goodOps SearchIndex.empty fxGoodOps = true ∧
    IndexConsistent (applyOps SearchIndex.empty fxGoodOps) :=
  ⟨by decide, c1_index_consistency fxGoodOps (by decide)⟩

/-! ### Claim C5 -/

/--
C5: for every document whose content length is at most `chunkSize`,
`ChunkingUtils.chunk` returns exactly one chunk with `startOffset = 0`,
`endOffset = content.length`, and content equal to the document's entire
content.
-/
theorem c5_single_chunk (chunkSize overlap : Nat) (doc : Document)
    (h : doc.content.length ≤ chunkSize) :
    ChunkingUtils.chunk chunkSize overlap doc =
      [{ id := doc.id ++ "-chunk-0"
         documentId := doc.id
         content := doc.content
         title := none
         startOffset := 0
         endOffset := (doc.content.length : Int)
         metadata := doc.metadata }] := by
  unfold ChunkingUtils.chunk
  rw [if_pos h]

/-- C5 (witness): the single-chunk theorem applied to the concrete
5-character document `fxSmallDoc` with `chunkSize = 1000`, `overlap = 200`. -/
theorem c5_single_chunk_witness :
    fxSmallDoc.content.length ≤ 1000 ∧
    ChunkingUtils.chunk 1000 200 fxSmallDoc =
      [{ id := "d5-chunk-0"
         documentId := "d5"
         content := "hello"
         title := none
         startOffset := 0
         endOffset := 5
         metadata := fxMeta }] :=
  ⟨by decide, c5_single_chunk 1000 200 fxSmallDoc (by decide)⟩

/-! ### Claim C7 -/

/--
C7: for every well-formed index state in which the chunk id is present,
`remove id` returns `true` and `count` decreases by exactly 1; an
immediately following `remove id` returns `false` and leaves `count`
unchanged.
-/
theorem c7_remove_idempotent (idx : SearchIndex) (id : String) (c : DocumentChunk)
    (hwf : idx.wf = true) (hpres : mapGet idx.chunks id = some c) :
    (idx.remove id).1 = true ∧
    (idx.remove id).2.count + 1 = idx.count ∧
    ((idx.remove id).2.remove id).1 = false ∧
    ((idx.remove id).2.remove id).2.count = (idx.remove id).2.count := by
  have hnd : (idx.chunks.map Prod.fst).Nodup := by
    have h2 := hwf
    simp only [SearchIndex.wf, Bool.and_eq_true, decide_eq_true_eq] at h2
    exact h2.1.1.1
  have hrm : idx.remove id =
      (true,
        ⟨mapDelete idx.chunks id,
          removeTokens idx.invertedIndex (SearchIndex.tokenize c.content) id⟩) := by
    unfold SearchIndex.remove
    rw [hpres]
  have hnone : mapGet (mapDelete idx.chunks id) id = none := by
    rw [mapGet_mapDelete, if_pos rfl]
  have hrm2 :
      SearchIndex.remove
          ⟨mapDelete idx.chunks id,
            removeTokens idx.invertedIndex (SearchIndex.tokenize c.content) id⟩ id =
        (false,
          ⟨mapDelete idx.chunks id,
            removeTokens idx.invertedIndex (SearchIndex.tokenize c.content) id⟩) := by
    unfold SearchIndex.remove
    simp only
    rw [hnone]
  refine ⟨by rw [hrm], ?_, ?_, ?_⟩
  · rw [hrm]
    show (mapDelete idx.chunks id).length + 1 = idx.chunks.length
    exact mapDelete_length hnd hpres
  · rw [hrm]
    show (SearchIndex.remove _ id).1 = false
    rw [hrm2]
  · rw [hrm]
    show (SearchIndex.remove _ id).2.count = _
    rw [hrm2]

/-- C7 (witness): the remove-idempotence theorem applied to the concrete
one-chunk index holding `fxApplePie` under id `"x"`. -/
theorem c7_remove_idempotent_witness :
    (SearchIndex.empty.add fxApplePie).wf = true ∧
    mapGet (SearchIndex.empty.add fxApplePie).chunks "x" = some fxApplePie ∧
    ((SearchIndex.empty.add fxApplePie).remove "x").1 = true ∧
    ((SearchIndex.empty.add fxApplePie).remove "x").2.count + 1 =
      (SearchIndex.empty.add fxApplePie).count :=
  ⟨by decide, by decide,
    (c7_remove_idempotent _ "x" fxApplePie (by decide) (by decide)).1,
    (c7_remove_idempotent _ "x" fxApplePie (by decide) (by decide)).2.1⟩

/-! ### Claim C2 -/

/--
C2 (counterexample): for the document `fxDocA1500` (1500 repetitions of
`"A"`) and a chunker configured with `chunkSize = 1000`, `overlap = 200`,
`chunk` does not return 2 chunks: the whole content is a single paragraph
section, and the accumulation loop never splits inside a section, so exactly
one chunk is produced.
-/
theorem c2_counterexample :
    (ChunkingUtils.chunk 1000 200 fxDocA1500).length ≠ 2 := by
  decide

/--
C2 (amended): for the document `fxDocA1500` and a chunker configured with
`chunkSize = 1000`, `overlap = 200`, `chunk` returns exactly one chunk, with
id `"d1-chunk-0"`, `startOffset 0`, `endOffset 1502` (the paragraph splitter
appends `"\n\n"` to the section and the emitted offset uses the untrimmed
buffer length), and content equal to the document's entire 1500-character
content (every character `'A'`).
-/
theorem c2_amended_single_chunk :
    (ChunkingUtils.chunk 1000 200 fxDocA1500).map
        (fun c => (c.id, c.startOffset, c.endOffset, c.content.length,
          c.content.data.all (fun d => d = 'A'))) =
      [("d1-chunk-0", 0, 1502, 1500, true)] := by
  decide

/-! ### Length lemmas for the chunker -/

theorem trimList_length_le (l : List Char) : (trimList l).length ≤ l.length := by
  unfold trimList
  rw [List.length_reverse]
  calc ((l.dropWhile isJsSpace).reverse.dropWhile isJsSpace).length
      ≤ (l.dropWhile isJsSpace).reverse.length :=
        List.Sublist.length_le (List.dropWhile_sublist _)
    _ = (l.dropWhile isJsSpace).length := List.length_reverse _
    _ ≤ l.length := List.Sublist.length_le (List.dropWhile_sublist _)

theorem jsTrim_length_le (s : String) : (jsTrim s).length ≤ s.length :=
  trimList_length_le s.data

theorem jsSliceNeg_length_le (s : String) (n : Nat) (h : n ≠ 0) :
    (jsSliceNeg s n).length ≤ n := by
  unfold jsSliceNeg
  rw [if_neg h]
  show (s.data.drop (s.data.length - n)).length ≤ n
  rw [List.length_drop]
  omega

theorem chunkLoop_content_le (docId : String) (meta : DocumentMetadata)
    (C V : Nat) (hV : V ≠ 0) :
    ∀ (secs : List String) (buf : String) (so : Int) (ci : Nat),
      (∀ sec ∈ secs, sec.length ≤ C) → buf.length ≤ C + V →
      ∀ c ∈ chunkLoop docId meta C V secs buf so ci,
        c.content.length ≤ C + V := by
  intro secs
  induction secs with
  | nil =>
      intro buf so ci hsecs hbuf c hc
      unfold chunkLoop at hc
      by_cases h : 0 < (jsTrim buf).length
      · rw [if_pos h] at hc
        rcases List.mem_singleton.mp hc with rfl
        show (jsTrim buf).length ≤ C + V
        exact le_trans (jsTrim_length_le buf) hbuf
      · rw [if_neg h] at hc
        exact absurd hc (List.not_mem_nil c)
  | cons sec rest ih =>
      intro buf so ci hsecs hbuf c hc
      unfold chunkLoop at hc
      by_cases h : C < buf.length + sec.length ∧ 0 < buf.length
      · rw [if_pos h] at hc
        rcases List.mem_cons.mp hc with rfl | hc'
        · show (jsTrim buf).length ≤ C + V
          exact le_trans (jsTrim_length_le buf) hbuf
        · refine ih _ _ _ (fun s hs => hsecs s (List.mem_cons_of_mem _ hs)) ?_ c hc'
          rw [String.length_append]
          have h1 : (jsSliceNeg buf V).length ≤ V := jsSliceNeg_length_le buf V hV
          have h2 : sec.length ≤ C := hsecs sec (List.mem_cons_self _ _)
          omega
      · rw [if_neg h] at hc
        refine ih _ _ _ (fun s hs => hsecs s (List.mem_cons_of_mem _ hs)) ?_ c hc
        rw [String.length_append]
        have h2 : sec.length ≤ C := hsecs sec (List.mem_cons_self _ _)
        push_neg at h
        by_cases hsum : buf.length + sec.length ≤ C
        · omega
        · have hz : buf.length = 0 := by
            have := h (by omega)
            omega
          omega

/-! ### Claim C4 -/

/--
C4 (counterexample): chunk sizes are not bounded by `chunkSize + overlap`
plus any modest fixed slack.  For the document `fxDocLongPara` (a short
paragraph followed by a 60-character paragraph) with `chunkSize = 10` and
`overlap = 3`, chunking yields 2 chunks of content lengths 2 and 63: the
second chunk exceeds `chunkSize + overlap = 13` by 50, because a single
section longer than `chunkSize` is never split.
-/
theorem c4_counterexample :
    1 < (ChunkingUtils.chunk 10 3 fxDocLongPara).length ∧
    (ChunkingUtils.chunk 10 3 fxDocLongPara).map (fun c => c.content.length) =
      [2, 63] ∧
    ∃ c ∈ ChunkingUtils.chunk 10 3 fxDocLongPara,
      10 + 3 + 40 < c.content.length := by
  refine ⟨?_, ?_, ?_⟩ <;> decide

/--
C4 (amended): for every document whose content chunks into multiple chunks
under a configuration with positive `overlap`, and all of whose sections
(as produced by `splitSemantically`) have length at most `chunkSize`, every
produced chunk's content length is at most `chunkSize + overlap`.
-/
theorem c4_chunk_length_bounded (chunkSize overlap : Nat) (doc : Document)
    (hov : overlap ≠ 0)
    (hsec : ∀ sec ∈ ChunkingUtils.splitSemantically doc.content doc.type,
      sec.length ≤ chunkSize)
    (_hmulti : 1 < (ChunkingUtils.chunk chunkSize overlap doc).length) :
    ∀ c ∈ ChunkingUtils.chunk chunkSize overlap doc,
      c.content.length ≤ chunkSize + overlap := by
  intro c hc
  unfold ChunkingUtils.chunk at hc
  by_cases hsmall : doc.content.length ≤ chunkSize
  · rw [if_pos hsmall] at hc
    rcases List.mem_singleton.mp hc with rfl
    show doc.content.length ≤ chunkSize + overlap
    omega
  · rw [if_neg hsmall] at hc
    refine chunkLoop_content_le doc.id doc.metadata chunkSize overlap hov
      (ChunkingUtils.splitSemantically doc.content doc.type) "" 0 0 hsec ?_ c hc
    show (0 : Nat) ≤ chunkSize + overlap
    omega

/-- C4 (witness): the amended bound applied to the concrete three-paragraph
document `fxDocParas` with `chunkSize = 10`, `overlap = 3`, which chunks
into 3 chunks of content lengths 4, 7 and 7. -/
theorem c4_chunk_length_bounded_witness :
    (∀ sec ∈ ChunkingUtils.splitSemantically fxDocParas.content fxDocParas.type,
      sec.length ≤ 10) ∧
    1 < (ChunkingUtils.chunk 10 3 fxDocParas).length ∧
    ∀ c ∈ ChunkingUtils.chunk 10 3 fxDocParas, c.content.length ≤ 10 + 3 :=
  ⟨by decide, by decide,
    c4_chunk_length_bounded 10 3 fxDocParas (by decide) (by decide) (by decide)⟩

/-! ### Score-map lemmas -/

theorem bumpAll_scoreOf {ids : List String} (hnd : ids.Nodup) :
    ∀ (sc : List (String × Nat)) (id : String),
      scoreOf (bumpAll sc ids) id =
        scoreOf sc id + (if id ∈ ids then 1 else 0) := by
  induction ids with
  | nil => intro sc id; simp [bumpAll]
  | cons i rest ih =>
      intro sc id
      simp only [List.nodup_cons] at hnd
      show scoreOf (bumpAll (mapSet sc i ((mapGet sc i).getD 0 + 1)) rest) id = _
      rw [ih hnd.2]
      by_cases hid : id = i
      · subst hid
        have hnotin : id ∉ rest := hnd.1
        simp only [hnotin, if_false, List.mem_cons, true_or, if_true]
        show scoreOf (mapSet sc id (scoreOf sc id + 1)) id + 0 = scoreOf sc id + 1
        unfold scoreOf
        rw [mapGet_mapSet, if_pos rfl]
        simp
      · have h1 : scoreOf (mapSet sc i ((mapGet sc i).getD 0 + 1)) id = scoreOf sc id := by
          unfold scoreOf
          rw [mapGet_mapSet, if_neg (fun h => hid h.symm)]
        rw [h1]
        simp only [List.mem_cons, hid, false_or]

theorem computeScores_scoreOf {idx : SearchIndex}
    (hpost : ∀ t s, mapGet idx.invertedIndex t = some s → s.Nodup) :
    ∀ (qts : List String) (sc : List (String × Nat)) (id : String),
      scoreOf (SearchIndex.computeScores idx qts sc) id =
        scoreOf sc id +
          (qts.filter (fun t => postingContains idx t id)).length := by
  intro qts
  induction qts with
  | nil => intro sc id; simp [SearchIndex.computeScores]
  | cons t rest ih =>
      intro sc id
      show scoreOf
          (match mapGet idx.invertedIndex t with
           | none => SearchIndex.computeScores idx rest sc
           | some ids => SearchIndex.computeScores idx rest (bumpAll sc ids)) id = _
      cases hget : mapGet idx.invertedIndex t with
      | none =>
          have hpc : postingContains idx t id = false := by
            unfold postingContains
            rw [hget]
          rw [ih sc id, List.filter_cons, hpc]
          simp
      | some ids =>
          have hnd : ids.Nodup := hpost t ids hget
          rw [ih (bumpAll sc ids) id, bumpAll_scoreOf hnd sc id, List.filter_cons]
          have hpc : postingContains idx t id = ids.contains id := by
            unfold postingContains
            rw [hget]
          rw [hpc]
          by_cases hmem : id ∈ ids
          · have : ids.contains id = true := by simpa using hmem
            simp only [this, hmem, if_true, List.length_cons]
            omega
          · have : ids.contains id = false := by simpa using hmem
            simp only [this, hmem, if_false, Bool.false_eq_true, List.length_cons]
            omega

theorem wf_posting_nodup {idx : SearchIndex} (hwf : idx.wf = true) :
    ∀ t s, mapGet idx.invertedIndex t = some s → s.Nodup := by
  intro t s hget
  have h2 := hwf
  simp only [SearchIndex.wf, Bool.and_eq_true, decide_eq_true_eq, List.all_eq_true] at h2
  exact h2.2 (t, s) (mapGet_mem hget)

/-! ### Claim C3 -/

/--
C3 (counterexample): the raw score is not a count over distinct query terms.
In the index `fxIdxXY` (chunk `"x"` contains `apple`, chunk `"y"` contains
`banana`), the query `"apple apple banana"` gives chunk `"x"` a raw score of
2, although only one distinct query token (`apple`) has `"x"` in its posting
set; repeating a token in the query does increase the raw score.
-/
theorem c3_counterexample :
    scoreOf (fxIdxXY.computeScores
        (SearchIndex.tokenize "apple apple banana") []) "x" = 2 ∧
    ((SearchIndex.tokenize "apple apple banana").dedup.filter
        (fun t => postingContains fxIdxXY t "x")).length = 1 := by
  constructor <;> decide

/--
C3 (amended): for every well-formed index state, the raw score `search`
computes for a chunk id equals the number of query-token occurrences,
counted with multiplicity in the tokenized query, whose posting set contains
that id.  Repeating a token in a query therefore increases raw scores
(and can change relative normalized scores).
-/
theorem c3_raw_score_multiplicity (idx : SearchIndex) (hwf : idx.wf = true)
    (qts : List String) (id : String) :
    scoreOf (idx.computeScores qts []) id =
      (qts.filter (fun t => postingContains idx t id)).length := by
  have h := computeScores_scoreOf (wf_posting_nodup hwf) qts [] id
  simpa [scoreOf, mapGet] using h

/-- C3 (witness): the amended raw-score characterization applied to the
concrete index `fxIdxXY` and the query `"apple apple banana"`. -/
theorem c3_raw_score_multiplicity_witness :
    fxIdxXY.wf = true ∧
    scoreOf (fxIdxXY.computeScores
        (SearchIndex.tokenize "apple apple banana") []) "x" =
      ((SearchIndex.tokenize "apple apple banana").filter
          (fun t => postingContains fxIdxXY t "x")).length :=
  ⟨by decide,
    c3_raw_score_multiplicity fxIdxXY (by decide)
      (SearchIndex.tokenize "apple apple banana") "x"⟩

/-! ### Search-pipeline lemmas -/

theorem search_eq (idx : SearchIndex) (q : String) (limit : Nat)
    (f : Option SearchFilters) :
    idx.search q limit f =
      (List.insertionSort scoreDescRel
        (idx.buildResults (idx.computeScores (SearchIndex.tokenize q) [])
          (maxScoreOf (idx.computeScores (SearchIndex.tokenize q) []))
          (SearchIndex.tokenize q) f)).take limit := rfl

theorem mem_buildResults {idx : SearchIndex} {scores : List (String × Nat)}
    {maxScore : Nat} {qts : List String} {f : Option SearchFilters}
    {r : SearchResult}
    (hr : r ∈ SearchIndex.buildResults idx scores maxScore qts f) :
    ∃ p ∈ scores, ∃ chunk, mapGet idx.chunks p.1 = some chunk ∧
      passChunkFilters f chunk = true ∧
      r = ⟨chunk, (p.2 : ℚ) / (maxScore : ℚ),
        SearchIndex.getHighlights chunk.content qts 50⟩ := by
  rcases List.mem_filterMap.mp hr with ⟨p, hp, heq⟩
  cases hget : mapGet idx.chunks p.1 with
  | none =>
      rw [hget] at heq
      exact absurd heq (by simp)
  | some chunk =>
      rw [hget] at heq
      dsimp only at heq
      by_cases hpass : passChunkFilters f chunk = true
      · rw [if_pos hpass] at heq
        exact ⟨p, hp, chunk, hget, hpass, (Option.some.inj heq).symm⟩
      · rw [if_neg hpass] at heq
        exact absurd heq (by simp)

theorem mem_results_of_mem_search {idx : SearchIndex} {q : String} {limit : Nat}
    {f : Option SearchFilters} {r : SearchResult}
    (hr : r ∈ idx.search q limit f) :
    r ∈ SearchIndex.buildResults idx
        (idx.computeScores (SearchIndex.tokenize q) [])
        (maxScoreOf (idx.computeScores (SearchIndex.tokenize q) []))
        (SearchIndex.tokenize q) f := by
  rw [search_eq] at hr
  exact (List.perm_insertionSort scoreDescRel _).mem_iff.mp
    (List.mem_of_mem_take hr)

/-! ### Claim C8 -/

/--
C8: for every query, limit, filters value and index state, each
`SearchResult` returned by `search` carries at most 3 highlight snippets,
because `getHighlights` only appends snippets while fewer than 3 have been
collected and finally slices to 3.
-/
theorem c8_highlight_cap (idx : SearchIndex) (q : String) (limit : Nat)
    (f : Option SearchFilters) (r : SearchResult)
    (hr : r ∈ idx.search q limit f) : r.highlights.length ≤ 3 := by
  rcases mem_buildResults (mem_results_of_mem_search hr) with
    ⟨p, hp, chunk, hget, hpass, rfl⟩
  show (SearchIndex.getHighlights chunk.content (SearchIndex.tokenize q) 50).length ≤ 3
  simp only [SearchIndex.getHighlights]
  exact List.length_take_le 3 _

/-- C8 (witness): the highlight cap applied to the concrete one-result search
for `"abc"` in an index holding the chunk `fxAbc`. -/
theorem c8_highlight_cap_witness :
    (⟨fxAbc, 1, ["abc"]⟩ : SearchResult) ∈
      (SearchIndex.empty.add fxAbc).search "abc" 10 none ∧
    (⟨fxAbc, 1, ["abc"]⟩ : SearchResult).highlights.length ≤ 3 :=
  ⟨by decide,
    c8_highlight_cap (SearchIndex.empty.add fxAbc) "abc" 10 none _ (by decide)⟩

/-! ### Claim C9 -/

/--
C9: for every query, limit and filters, `search` returns at most `limit`
results and the returned sequence is sorted by score in non-increasing
order; with the `limit` argument omitted the default limit is 10.
-/
theorem c9_limit_and_sorted :
    (∀ (idx : SearchIndex) (q : String) (limit : Nat) (f : Option SearchFilters),
      (idx.search q limit f).length ≤ limit ∧
      (idx.search q limit f).Sorted scoreDescRel) ∧
    (defaultSearchLimit = 10 ∧
      ∀ (idx : SearchIndex) (q : String) (f : Option SearchFilters),
        idx.searchDefault q f = idx.search q 10 f) := by
  constructor
  · intro idx q limit f
    rw [search_eq]
    constructor
    · exact List.length_take_le limit _
    · exact (List.sorted_insertionSort scoreDescRel _).sublist
        (List.take_sublist _ _)
  · exact ⟨rfl, fun idx q f => rfl⟩

/-! ### Claim C10 -/

theorem keys_nodup_bumpAll :
    ∀ (ids : List String) (sc : List (String × Nat)),
      (sc.map Prod.fst).Nodup → ((bumpAll sc ids).map Prod.fst).Nodup := by
  intro ids
  induction ids with
  | nil => intro sc h; exact h
  | cons i rest ih => intro sc h; exact ih _ (nodup_keys_mapSet _ _ h)

theorem keys_nodup_computeScores (idx : SearchIndex) :
    ∀ (qts : List String) (sc : List (String × Nat)),
      (sc.map Prod.fst).Nodup →
      ((idx.computeScores qts sc).map Prod.fst).Nodup := by
  intro qts
  induction qts with
  | nil => intro sc h; exact h
  | cons t rest ih =>
      intro sc h
      cases hget : mapGet idx.invertedIndex t with
      | none => simpa [SearchIndex.computeScores, hget] using ih sc h
      | some ids =>
          simpa [SearchIndex.computeScores, hget] using
            ih (bumpAll sc ids) (keys_nodup_bumpAll ids sc h)

theorem wf_chunk_id {idx : SearchIndex} (hwf : idx.wf = true) :
    ∀ k c, mapGet idx.chunks k = some c → c.id = k := by
  intro k c hget
  have h2 := hwf
  simp only [SearchIndex.wf, Bool.and_eq_true, decide_eq_true_eq,
    List.all_eq_true] at h2
  have := h2.1.1.2 (k, c) (mapGet_mem hget)
  simpa using this

theorem buildResults_mem_key {idx : SearchIndex} {scores : List (String × Nat)}
    {maxScore : Nat} {qts : List String} {f : Option SearchFilters}
    {r : SearchResult}
    (hid : ∀ k c, mapGet idx.chunks k = some c → c.id = k)
    (hr : r ∈ SearchIndex.buildResults idx scores maxScore qts f) :
    r.chunk.id ∈ scores.map Prod.fst := by
  rcases mem_buildResults hr with ⟨p, hp, chunk, hget, hpass, rfl⟩
  have hcid : chunk.id = p.1 := hid _ _ hget
  exact List.mem_map.mpr ⟨p, hp, hcid.symm ▸ rfl⟩

theorem buildResults_ids_nodup {idx : SearchIndex} {maxScore : Nat}
    {qts : List String} {f : Option SearchFilters}
    {scores : List (String × Nat)}
    (hkeys : (scores.map Prod.fst).Nodup)
    (hid : ∀ k c, mapGet idx.chunks k = some c → c.id = k) :
    ((SearchIndex.buildResults idx scores maxScore qts f).map
        (fun r => r.chunk.id)).Nodup := by
  induction scores with
  | nil => simp [SearchIndex.buildResults]
  | cons p rest ih =>
      simp only [List.map_cons, List.nodup_cons] at hkeys
      cases hget : mapGet idx.chunks p.1 with
      | none =>
          have heq : SearchIndex.buildResults idx (p :: rest) maxScore qts f =
              SearchIndex.buildResults idx rest maxScore qts f := by
            unfold SearchIndex.buildResults
            rw [List.filterMap_cons]
            simp only [hget]
          rw [heq]
          exact ih hkeys.2
      | some chunk =>
          by_cases hpass : passChunkFilters f chunk = true
          · have heq : SearchIndex.buildResults idx (p :: rest) maxScore qts f =
                (⟨chunk, (p.2 : ℚ) / (maxScore : ℚ),
                  SearchIndex.getHighlights chunk.content qts 50⟩ : SearchResult) ::
                  SearchIndex.buildResults idx rest maxScore qts f := by
              unfold SearchIndex.buildResults
              rw [List.filterMap_cons]
              simp only [hget, hpass, if_true]
            rw [heq]
            simp only [List.map_cons, List.nodup_cons]
            refine ⟨?_, ih hkeys.2⟩
            intro hmem
            rcases List.mem_map.mp hmem with ⟨r', hr', hrid⟩
            have hkey : r'.chunk.id ∈ rest.map Prod.fst :=
              buildResults_mem_key hid hr'
            rw [hrid] at hkey
            have hcid : chunk.id = p.1 := hid _ _ hget
            rw [hcid] at hkey
            exact hkeys.1 hkey
          · have heq : SearchIndex.buildResults idx (p :: rest) maxScore qts f =
                SearchIndex.buildResults idx rest maxScore qts f := by
              unfold SearchIndex.buildResults
              rw [List.filterMap_cons]
              simp [hget, hpass]
            rw [heq]
            exact ih hkeys.2

/--
C10: for every query, limit, filters and well-formed index state, no chunk
id appears more than once in the result sequence returned by `search`: the
score map iterated to build results has unique keys, and each key yields at
most one result.
-/
theorem c10_no_duplicate_chunks (idx : SearchIndex) (hwf : idx.wf = true)
    (q : String) (limit : Nat) (f : Option SearchFilters) :
    ((idx.search q limit f).map (fun r => r.chunk.id)).Nodup := by
  rw [search_eq, List.map_take]
  refine List.Nodup.sublist (List.take_sublist _ _) ?_
  have hperm :=
    ((List.perm_insertionSort scoreDescRel
        (SearchIndex.buildResults idx
          (idx.computeScores (SearchIndex.tokenize q) [])
          (maxScoreOf (idx.computeScores (SearchIndex.tokenize q) []))
          (SearchIndex.tokenize q) f)).map (fun r => r.chunk.id))
  rw [hperm.nodup_iff]
  exact buildResults_ids_nodup
    (keys_nodup_computeScores idx (SearchIndex.tokenize q) [] (by simp))
    (wf_chunk_id hwf)

/-- C10 (witness): the no-duplicates theorem applied to the concrete
two-chunk index `fxIdxXY` and the query `"apple banana"`. -/
theorem c10_no_duplicate_chunks_witness :
    fxIdxXY.wf = true ∧
    ((fxIdxXY.search "apple banana" 10 none).map
        (fun r => r.chunk.id)).Nodup :=
  ⟨by decide, c10_no_duplicate_chunks fxIdxXY (by decide) "apple banana" 10 none⟩

/-! ### Tokenization lemmas -/

theorem charOfNat_toNat {m : Nat} (h : m < 55296) : (Char.ofNat m).toNat = m := by
  have hv : m.isValidChar := Or.inl h
  unfold Char.ofNat
  rw [dif_pos hv]
  rfl

theorem jsCharToLower_not_upper (c : Char) :
    ¬(65 ≤ (jsCharToLower c).toNat ∧ (jsCharToLower c).toNat ≤ 90) := by
  unfold jsCharToLower
  by_cases h : 65 ≤ c.toNat ∧ c.toNat ≤ 90
  · rw [if_pos h]
    rw [charOfNat_toNat (by omega)]
    omega
  · rw [if_neg h]
    exact h

theorem jsCharToLower_fixpoint {c : Char}
    (h : ¬(65 ≤ c.toNat ∧ c.toNat ≤ 90)) : jsCharToLower c = c := by
  unfold jsCharToLower
  rw [if_neg h]

theorem jsCharToLower_idem (c : Char) :
    jsCharToLower (jsCharToLower c) = jsCharToLower c :=
  jsCharToLower_fixpoint (jsCharToLower_not_upper c)

theorem map_fix {f : Char → Char} :
    ∀ (l : List Char), (∀ c ∈ l, f c = c) → l.map f = l := by
  intro l h
  induction l with
  | nil => rfl
  | cons c rest ih =>
      simp only [List.map_cons, h c (List.mem_cons_self c rest)]
      rw [ih (fun d hd => h d (List.mem_cons_of_mem _ hd))]

theorem splitWsAux_chars :
    ∀ (l acc piece : List Char),
      (∀ c ∈ l, isJsSpace c = true ∨ isTokenChar c = true) →
      (∀ c ∈ acc, isTokenChar c = true) →
      piece ∈ splitWsAux l acc → ∀ c ∈ piece, isTokenChar c = true := by
  intro l
  induction l with
  | nil =>
      intro acc piece _hl hacc hmem c hc
      simp only [splitWsAux, List.mem_singleton] at hmem
      subst hmem
      exact hacc c (List.mem_reverse.mp hc)
  | cons d rest ih =>
      intro acc piece hl hacc hmem c hc
      by_cases hd : isJsSpace d = true
      · rw [show splitWsAux (d :: rest) acc = acc.reverse :: splitWsAux rest []
            from by simp [splitWsAux, hd]] at hmem
        rcases List.mem_cons.mp hmem with rfl | hmem'
        · exact hacc c (List.mem_reverse.mp hc)
        · exact ih [] piece (fun e he => hl e (List.mem_cons_of_mem _ he))
            (by simp) hmem' c hc
      · have hdt : isTokenChar d = true := by
          rcases hl d (List.mem_cons_self _ _) with h | h
          · exact absurd h hd
          · exact h
        rw [show splitWsAux (d :: rest) acc = splitWsAux rest (d :: acc)
            from by simp [splitWsAux, hd]] at hmem
        refine ih (d :: acc) piece (fun e he => hl e (List.mem_cons_of_mem _ he))
          ?_ hmem c hc
        intro e he
        rcases List.mem_cons.mp he with rfl | h
        · exact hdt
        · exact hacc e h

theorem splitWsAux_no_space :
    ∀ (l acc : List Char), (∀ c ∈ l, isJsSpace c = false) →
      splitWsAux l acc = [acc.reverse ++ l] := by
  intro l
  induction l with
  | nil => intro acc _h; simp [splitWsAux]
  | cons d rest ih =>
      intro acc h
      have hd : isJsSpace d = false := h d (List.mem_cons_self _ _)
      rw [show splitWsAux (d :: rest) acc = splitWsAux rest (d :: acc)
          from by simp [splitWsAux, hd]]
      rw [ih (d :: acc) (fun e he => h e (List.mem_cons_of_mem _ he))]
      simp

theorem cleaned_chars (s : String) :
    ∀ c ∈ (s.data.map jsCharToLower).map replaceNonWordChar,
      isJsSpace c = true ∨ isTokenChar c = true := by
  intro c hc
  rcases List.mem_map.mp hc with ⟨d, hd, rfl⟩
  rcases List.mem_map.mp hd with ⟨e, _he, rfl⟩
  unfold replaceNonWordChar
  by_cases hw : (isWordChar (jsCharToLower e) || isJsSpace (jsCharToLower e)) = true
  · rw [if_pos hw]
    by_cases hs : isJsSpace (jsCharToLower e) = true
    · exact Or.inl hs
    · right
      have hw' : isWordChar (jsCharToLower e) = true := by
        rcases Bool.or_eq_true_iff.mp hw with h | h
        · exact h
        · exact absurd h hs
      unfold isTokenChar
      simp [hw', hs, jsCharToLower_idem]
  · rw [if_neg hw]
    left
    rfl

theorem tokenize_chars {s T : String} (hT : T ∈ SearchIndex.tokenize s) :
    (∀ c ∈ T.data, isTokenChar c = true) ∧ 2 < T.length := by
  unfold SearchIndex.tokenize at hT
  rcases List.mem_map.mp hT with ⟨t, ht, rfl⟩
  rcases List.mem_filter.mp ht with ⟨htmem, htlen⟩
  constructor
  · intro c hc
    exact splitWsAux_chars _ [] t (cleaned_chars s) (by simp) htmem c hc
  · simpa using htlen

theorem tokenize_single {T : String}
    (hchars : ∀ c ∈ T.data, isTokenChar c = true) (hlen : 2 < T.length) :
    SearchIndex.tokenize T = [T] := by
  have hword : ∀ c ∈ T.data, isWordChar c = true := by
    intro c hc
    have h := hchars c hc
    unfold isTokenChar at h
    simp only [Bool.and_eq_true] at h
    exact h.1.1
  have hspace : ∀ c ∈ T.data, isJsSpace c = false := by
    intro c hc
    have h := hchars c hc
    unfold isTokenChar at h
    simp only [Bool.and_eq_true, Bool.not_eq_true'] at h
    exact h.1.2
  have hlow : ∀ c ∈ T.data, jsCharToLower c = c := by
    intro c hc
    have h := hchars c hc
    unfold isTokenChar at h
    simp only [Bool.and_eq_true, beq_iff_eq] at h
    exact h.2
  have h1 : T.data.map jsCharToLower = T.data := map_fix T.data hlow
  have h2 : T.data.map replaceNonWordChar = T.data := by
    refine map_fix T.data ?_
    intro c hc
    unfold replaceNonWordChar
    rw [if_pos (by rw [hword c hc]; rfl)]
  unfold SearchIndex.tokenize
  rw [h1, h2]
  unfold splitWs
  rw [splitWsAux_no_space T.data [] hspace]
  simp only [List.reverse_nil, List.nil_append]
  rw [List.filter_cons]
  rw [if_pos (show decide (2 < (T.data : List Char).length) = true by
    simpa using hlen)]
  rfl

/-! ### Score positivity and result-count lemmas -/

theorem le_foldl_max (sc : List (String × Nat)) :
    ∀ a : Nat, a ≤ sc.foldl (fun m p => max m p.2) a := by
  induction sc with
  | nil => intro a; exact Nat.le_refl a
  | cons p rest ih =>
      intro a
      exact le_trans (Nat.le_max_left a p.2) (ih (max a p.2))

theorem one_le_maxScoreOf (sc : List (String × Nat)) : 1 ≤ maxScoreOf sc :=
  le_foldl_max sc 1

theorem bumpAll_scoreOf_mono {id : String} :
    ∀ (ids : List String) (sc : List (String × Nat)),
      scoreOf sc id ≤ scoreOf (bumpAll sc ids) id := by
  intro ids
  induction ids with
  | nil => intro sc; exact Nat.le_refl _
  | cons i rest ih =>
      intro sc
      refine le_trans ?_ (ih (mapSet sc i ((mapGet sc i).getD 0 + 1)))
      unfold scoreOf
      rw [mapGet_mapSet]
      by_cases h : i = id
      · rw [if_pos h, h]
        simp [scoreOf]
      · rw [if_neg h]

theorem bumpAll_scoreOf_ge_one {id : String} :
    ∀ (ids : List String) (sc : List (String × Nat)), id ∈ ids →
      1 ≤ scoreOf (bumpAll sc ids) id := by
  intro ids
  induction ids with
  | nil => intro sc h; exact absurd h (List.not_mem_nil id)
  | cons i rest ih =>
      intro sc hmem
      rcases List.mem_cons.mp hmem with rfl | hmem'
      · refine le_trans ?_ (bumpAll_scoreOf_mono rest _)
        unfold scoreOf
        rw [mapGet_mapSet, if_pos rfl]
        simp
      · exact ih _ hmem'

theorem scoreOf_mem {sc : List (String × Nat)} {id : String}
    (h : 1 ≤ scoreOf sc id) :
    ∃ k, mapGet sc id = some k ∧ 1 ≤ k ∧ (id, k) ∈ sc := by
  unfold scoreOf at h
  cases hget : mapGet sc id with
  | none => rw [hget] at h; simp at h
  | some k =>
      rw [hget] at h
      exact ⟨k, rfl, by simpa using h, mapGet_mem hget⟩

theorem length_filterMap_le_filter {α β : Type} (f : α → Option β)
    (p : α → Bool) (h : ∀ a, (f a).isSome = true → p a = true) :
    ∀ l : List α, (l.filterMap f).length ≤ (l.filter p).length := by
  intro l
  induction l with
  | nil => simp
  | cons a rest ih =>
      rw [List.filterMap_cons, List.filter_cons]
      cases hfa : f a with
      | none =>
          by_cases hpa : p a = true
          · simp only [hpa, if_true, List.length_cons]
            omega
          · simp only [hpa, if_false]
            exact ih
      | some b =>
          have hpa : p a = true := h a (by rw [hfa]; rfl)
          simp only [hpa, if_true, List.length_cons]
          omega

theorem nodup_subset_length_le {l l' : List String} (hnd : l.Nodup)
    (hsub : ∀ x ∈ l, x ∈ l') : l.length ≤ l'.length := by
  calc l.length = l.toFinset.card := (List.toFinset_card_of_nodup hnd).symm
    _ ≤ l'.toFinset.card := by
        refine Finset.card_le_card ?_
        intro x hx
        exact List.mem_toFinset.mpr (hsub x (List.mem_toFinset.mp hx))
    _ ≤ l'.length := List.toFinset_card_le l'

theorem buildResults_length_le {idx : SearchIndex} {maxScore : Nat}
    {qts : List String} {f : Option SearchFilters}
    {scores : List (String × Nat)}
    (hkeys : (scores.map Prod.fst).Nodup) :
    (SearchIndex.buildResults idx scores maxScore qts f).length ≤
      idx.chunks.length := by
  unfold SearchIndex.buildResults
  have step1 := length_filterMap_le_filter
    (fun p : String × Nat =>
      match mapGet idx.chunks p.1 with
      | none => none
      | some chunk =>
          if passChunkFilters f chunk = true then
            some (⟨chunk, (p.2 : ℚ) / (maxScore : ℚ),
              SearchIndex.getHighlights chunk.content qts 50⟩ : SearchResult)
          else none)
    (fun p : String × Nat => (mapGet idx.chunks p.1).isSome)
    (by
      intro p hp
      dsimp only
      dsimp only at hp
      cases hget : mapGet idx.chunks p.1 with
      | none => rw [hget] at hp; simp at hp
      | some chunk => rfl)
    scores
  refine le_trans step1 ?_
  have step2 :
      ((scores.filter (fun p => (mapGet idx.chunks p.1).isSome)).map
          Prod.fst).length ≤ (idx.chunks.map Prod.fst).length := by
    refine nodup_subset_length_le ?_ ?_
    · exact List.Nodup.sublist
        (List.Sublist.map Prod.fst (List.filter_sublist scores)) hkeys
    · intro x hx
      rcases List.mem_map.mp hx with ⟨p, hp, rfl⟩
      rcases List.mem_filter.mp hp with ⟨_hmem, hsome⟩
      cases hget : mapGet idx.chunks p.1 with
      | none => rw [hget] at hsome; simp at hsome
      | some chunk => exact mem_keys_of_mapGet hget
  rw [List.length_map, List.length_map] at step2
  exact step2

/-! ### Claim C6 -/

/--
C6: tokenize-then-search round trip.  For every chunk whose content
tokenizes to a list containing a token `T` (of length greater than 2), after
`add(chunk)`, calling `search(T, limit)` with no filters and `limit` at
least the number of indexed chunks returns a result whose chunk is that
chunk and whose score is greater than 0.
-/
theorem c6_roundtrip (idx : SearchIndex) (c : DocumentChunk) (T : String)
    (limit : Nat) (hT : T ∈ SearchIndex.tokenize c.content)
    (hlen : 2 < T.length) (hlimit : (idx.add c).count ≤ limit) :
    ∃ r ∈ (idx.add c).search T limit none, r.chunk = c ∧ 0 < r.score := by
  have htok : SearchIndex.tokenize T = [T] :=
    tokenize_single (tokenize_chars hT).1 hlen
  have hpost : PostingMem (idx.add c).invertedIndex T c.id := by
    show PostingMem (addTokens idx.invertedIndex (SearchIndex.tokenize c.content)
      c.id) T c.id
    exact (postingMem_addTokens _ _).mpr (Or.inr ⟨hT, rfl⟩)
  obtain ⟨ids, hgetT, hmemid⟩ := hpost
  have hscores : (idx.add c).computeScores (SearchIndex.tokenize T) [] =
      bumpAll [] ids := by
    rw [htok]
    show (match mapGet (idx.add c).invertedIndex T with
          | none => SearchIndex.computeScores (idx.add c) [] []
          | some ids => SearchIndex.computeScores (idx.add c) [] (bumpAll [] ids)) =
        bumpAll [] ids
    rw [hgetT]
    rfl
  have hscore1 : 1 ≤ scoreOf (bumpAll [] ids) c.id :=
    bumpAll_scoreOf_ge_one ids [] hmemid
  obtain ⟨k, hk, hk1, hkmem⟩ := scoreOf_mem hscore1
  have hgetc : mapGet (idx.add c).chunks c.id = some c := by
    show mapGet (mapSet idx.chunks c.id c) c.id = some c
    rw [mapGet_mapSet, if_pos rfl]
  set maxS := maxScoreOf ((idx.add c).computeScores (SearchIndex.tokenize T) [])
    with hmaxS
  have hmax1 : 1 ≤ maxS := one_le_maxScoreOf _
  set r : SearchResult :=
    ⟨c, (k : ℚ) / (maxS : ℚ),
      SearchIndex.getHighlights c.content (SearchIndex.tokenize T) 50⟩ with hr
  have hrb : r ∈ SearchIndex.buildResults (idx.add c)
      ((idx.add c).computeScores (SearchIndex.tokenize T) []) maxS
      (SearchIndex.tokenize T) none := by
    refine List.mem_filterMap.mpr ⟨(c.id, k), ?_, ?_⟩
    · rw [hscores]
      exact hkmem
    · show (match mapGet (idx.add c).chunks c.id with
            | none => none
            | some chunk =>
                if passChunkFilters none chunk = true then
                  some (⟨chunk, (k : ℚ) / (maxS : ℚ),
                    SearchIndex.getHighlights chunk.content
                      (SearchIndex.tokenize T) 50⟩ : SearchResult)
                else none) = some r
      rw [hgetc]
      dsimp only
      rw [if_pos (by rfl)]
  have hsorted := List.perm_insertionSort scoreDescRel
    (SearchIndex.buildResults (idx.add c)
      ((idx.add c).computeScores (SearchIndex.tokenize T) []) maxS
      (SearchIndex.tokenize T) none)
  have hlength : (SearchIndex.buildResults (idx.add c)
      ((idx.add c).computeScores (SearchIndex.tokenize T) []) maxS
      (SearchIndex.tokenize T) none).length ≤ limit := by
    refine le_trans (buildResults_length_le ?_) hlimit
    rw [hscores]
    exact keys_nodup_bumpAll ids [] (by simp)
  have htake : (List.insertionSort scoreDescRel
      (SearchIndex.buildResults (idx.add c)
        ((idx.add c).computeScores (SearchIndex.tokenize T) []) maxS
        (SearchIndex.tokenize T) none)).take limit =
      List.insertionSort scoreDescRel
        (SearchIndex.buildResults (idx.add c)
          ((idx.add c).computeScores (SearchIndex.tokenize T) []) maxS
          (SearchIndex.tokenize T) none) := by
    refine List.take_of_length_le ?_
    rw [hsorted.length_eq]
    exact hlength
  refine ⟨r, ?_, rfl, ?_⟩
  · rw [search_eq, htake]
    exact hsorted.mem_iff.mpr hrb
  · show (0 : ℚ) < (k : ℚ) / (maxS : ℚ)
    refine div_pos ?_ ?_
    · exact_mod_cast Nat.lt_of_lt_of_le Nat.zero_lt_one hk1
    · exact_mod_cast Nat.lt_of_lt_of_le Nat.zero_lt_one hmax1

/-- C6 (witness): the round-trip theorem applied to the empty index, the
chunk `fxAbc` whose content is the single token `abc`, the query `"abc"`
and limit 10. -/
theorem c6_roundtrip_witness :
    "abc" ∈ SearchIndex.tokenize fxAbc.content ∧
    2 < ("abc" : String).length ∧
    (SearchIndex.empty.add fxAbc).count ≤ 10 ∧
    ∃ r ∈ (SearchIndex.empty.add fxAbc).search "abc" 10 none,
      r.chunk = fxAbc ∧ 0 < r.score :=
  ⟨by decide, by decide, by decide,
    c6_roundtrip SearchIndex.empty fxAbc "abc" 10 (by decide) (by decide)
      (by decide)⟩
